import Mathlib

/-!
Verification of the quiz-bot sources (`textnorm.py`, `quiz.py`, `main.py`,
`db.py`) against their natural-language specification.

Python strings are modelled as `List Char`.  The Unicode tables consulted by
the source (`str.lower`, `unicodedata.normalize("NFKD", ·)`,
`unicodedata.combining`, the `\w`/`\s` character classes and `str.isalnum`)
are modelled exactly on the fragment of Unicode exercised by the theorems
below: the ASCII range plus the characters `ё Ё е é É №` and the combining
acute accent U+0301.  Outside that fragment the tables fall back to
identity/ASCII behaviour; every theorem that quantifies over strings
restricts itself to the faithful fragment.
-/

namespace QuizBot

/-- The combining acute accent U+0301 (the NFKD tail of `é`). -/
def combiningAcute : Char := Char.ofNat 769

/-- Model of Python `str.lower`, char-wise, on the modelled fragment
(ASCII plus `Ё → ё` and `É → é`; other characters are case-stable or
outside the fragment). -/
def pyLower (c : Char) : Char :=
  if 65 ≤ c.toNat ∧ c.toNat ≤ 90 then Char.ofNat (c.toNat + 32)
  else if c = 'Ё' then 'ё'
  else if c = 'É' then 'é'
  else c

/-- Model of the NFKD decomposition of a single character
(`unicodedata.normalize("NFKD", ·)` applied char-wise).  ASCII characters
are NFKD-stable; `é` decomposes to `e` followed by U+0301; the numero sign
`№` (U+2116) has the compatibility decomposition `No`. -/
def nfkdChar (c : Char) : List Char :=
  if c = 'é' then ['e', combiningAcute]
  else if c = '№' then ['N', 'o']
  else [c]

/-- Model of `unicodedata.combining ≠ 0` on the fragment: only the
combining acute accent is a combining mark here (no ASCII character is). -/
def isCombiningChar (c : Char) : Bool :=
  c = combiningAcute

/-- Model of the regex class `\s` (re.UNICODE): space, tab, LF, VT, FF, CR
(no non-ASCII space characters appear in the fragment). -/
def isSpaceChar (c : Char) : Bool :=
  c = ' ' ∨ c = Char.ofNat 9 ∨ c = Char.ofNat 10 ∨ c = Char.ofNat 11 ∨
    c = Char.ofNat 12 ∨ c = Char.ofNat 13

/-- Model of the regex class `\w` (re.UNICODE): ASCII alphanumerics and
underscore, plus the letters of the fragment (`е ё é` are Unicode letters). -/
def isWordChar (c : Char) : Bool :=
  c.isAlphanum ∨ c = '_' ∨ c = 'е' ∨ c = 'ё' ∨ c = 'é'

/-- Model of Python `str.isalnum` char-wise (used by `main.py` on display
answers): ASCII alphanumerics plus the fragment letters. -/
def pyIsAlnum (c : Char) : Bool :=
  c.isAlphanum ∨ c = 'е' ∨ c = 'ё' ∨ c = 'é'

/-- Drop trailing characters satisfying `p` (helper for `str.strip`). -/
def dropTrailing (p : Char → Bool) (l : List Char) : List Char :=
  (l.reverse.dropWhile p).reverse

/-- Model of Python `str.strip()`: remove leading and trailing whitespace. -/
def pyStrip (l : List Char) : List Char :=
  dropTrailing isSpaceChar (l.dropWhile isSpaceChar)

/-- Fuel-indexed body of `subRuns` (fuel makes the recursion structural,
so that the kernel can evaluate it; the fuel is always the list length). -/
def subRunsAux (p : Char → Bool) (r : Char) : Nat → List Char → List Char
  | 0, _ => []
  | _, [] => []
  | fuel + 1, c :: cs =>
    if p c then r :: subRunsAux p r fuel (cs.dropWhile p)
    else c :: subRunsAux p r fuel cs

/-- `subRuns p r l` replaces every maximal run of characters satisfying `p`
by the single character `r`: the model of `re.sub` with a pattern of the
form `[...]+` and a one-character replacement. -/
def subRuns (p : Char → Bool) (r : Char) (l : List Char) : List Char :=
  subRunsAux p r l.length l

/-- A character is "punctuation" for `textnorm._punct_re` (`[^\w\s]+`). -/
def isPunctChar (c : Char) : Bool :=
  ¬ (isWordChar c ∨ isSpaceChar c)

/-- `textnorm.normalize`: strip + lower, `ё → е`, NFKD with combining marks
removed, punctuation runs replaced by a space, whitespace runs collapsed,
final strip.  The empty string is returned unchanged (the `if not text`
guard). -/
def normalize (text : List Char) : List Char :=
  if text = [] then []
  else
    let t1 := (pyStrip text).map pyLower
    let t2 := t1.map (fun c => if c = 'ё' then 'е' else c)
    let t3 := (t2.map nfkdChar).flatten
    let t4 := t3.filter (fun c => ¬ isCombiningChar c)
    let t5 := subRuns isPunctChar ' ' t4
    let t6 := pyStrip (subRuns isSpaceChar ' ' t5)
    t6

/-! ### JSON values and the question records of `quiz.py` -/

/-- JSON-ish Python values appearing in catalog records (`dict` values are
not needed by any claim; the `meta` field, which the loader copies through
unchanged, is omitted from the model). -/
inductive JVal where
  | jnull
  | jbool (b : Bool)
  | jint (n : Int)
  | jstr (s : List Char)
  | jlist (xs : List JVal)

/-- Decimal digits of a natural number. -/
def natDigits (n : Nat) : List Char :=
  if h : n < 10 then [Char.ofNat (48 + n)]
  else natDigits (n / 10) ++ [Char.ofNat (48 + n % 10)]
decreasing_by
  exact Nat.div_lt_self (Nat.lt_of_lt_of_le (Nat.succ_pos 9) (Nat.le_of_not_lt h)) (by omega)

/-- Model of Python `str(·)` on an integer. -/
def pyStrInt (n : Int) : List Char :=
  if n < 0 then '-' :: natDigits n.natAbs else natDigits n.natAbs

/-- Model of Python `str(·)` on a `JVal` (`str(None) = "None"`,
`str(True) = "True"`; lists render bracketed, so they never look numeric). -/
def pyStrJVal : JVal → List Char
  | .jnull => ['N', 'o', 'n', 'e']
  | .jbool true => ['T', 'r', 'u', 'e']
  | .jbool false => ['F', 'a', 'l', 's', 'e']
  | .jint n => pyStrInt n
  | .jstr s => s
  | .jlist _ => ['[', ']']

/-- Model of Python `str.isdigit` on the ASCII fragment: non-empty and all
decimal digits. -/
def isDigitStr (s : List Char) : Bool :=
  ¬ s = [] ∧ s.all Char.isDigit

/-- Numeric value of a digit string. -/
def digitsToNat (s : List Char) : Nat :=
  s.foldl (fun acc c => acc * 10 + (c.toNat - 48)) 0

/-- Model of Python `int(·)` on values that passed the `isdigit` test
(`jint` values and digit strings; other cases are unreachable behind the
guard and are given a total default). -/
def jvalToInt : JVal → Int
  | .jint n => n
  | .jstr s => (digitsToNat s : Int)
  | .jbool b => if b then 1 else 0
  | _ => 0

/-- A loaded question record: the dict produced by
`QuizEngine._normalize_question`. -/
structure Question where
  id : List Char
  category : Option (List Char)
  question : List Char
  answers : List (List Char)
  aliases : List (List Char)
  tags : List (List Char)
  difficulty : JVal
  lang : JVal

/-- The reserved tag scope name. -/
def allTag : List Char := ['a', 'l', 'l']

/-- `clean_list` from `_normalize_question`: keep the stripped non-blank
strings, in order. -/
def cleanList (xs : List JVal) : List (List Char) :=
  xs.filterMap (fun x =>
    match x with
    | .jstr s => if pyStrip s = [] then none else some (pyStrip s)
    | _ => none)

/-- A raw catalog record: each field is `none` when the key is absent
(`some .jnull` models a key present with value `null`). -/
structure RawQuestion where
  id : Option JVal := none
  category : Option JVal := none
  question : Option JVal := none
  answers : Option JVal := none
  aliases : Option JVal := none
  tags : Option JVal := none
  difficulty : Option JVal := none
  lang : Option JVal := none

/-- The difficulty rule of `_normalize_question`:
`int(q.get("difficulty", 2)) if str(q.get("difficulty", "")).isdigit()
else q.get("difficulty", 2)`. -/
def difficultyField (d : Option JVal) : JVal :=
  if isDigitStr (pyStrJVal (d.getD (.jstr []))) then .jint (jvalToInt (d.getD (.jint 2)))
  else d.getD (.jint 2)

/-- `QuizEngine._normalize_question`: accept or reject a raw record and
build the loaded question.  `fallbackId` stands for the synthesized
`f"{basename}::{ordinal}"` identifier used when `id` is absent or null. -/
def normalizeQuestion (fallbackId : List Char) (q : RawQuestion) : Option Question :=
  match q.question with
  | some (.jstr text) =>
    if pyStrip text = [] then none
    else
      match q.answers with
      | some (.jlist answers) =>
        if ¬ answers.any (fun a =>
            match a with
            | .jstr s => ¬ pyStrip s = []
            | _ => false) then none
        else
          let qid : List Char :=
            match q.id with
            | some .jnull => fallbackId
            | some v => pyStrJVal v
            | none => fallbackId
          let tags0 : List JVal :=
            match q.tags with
            | some (.jlist xs) => xs
            | _ => []
          let tags1 : List JVal :=
            match q.category with
            | some (.jstr c) =>
              if pyStrip c = [] then tags0
              else
                let catTag := normalize c
                if ¬ catTag = [] ∧
                    ¬ (tags0.filterMap (fun t =>
                        match t with
                        | .jstr s => some (normalize s)
                        | _ => none)).contains catTag then
                  tags0 ++ [.jstr catTag]
                else tags0
            | _ => tags0
          let aliases0 : List JVal :=
            match q.aliases with
            | some (.jlist xs) => xs
            | _ => []
          some
            { id := qid
              category :=
                match q.category with
                | some (.jstr c) => some (pyStrip c)
                | _ => none
              question := pyStrip text
              answers := cleanList answers
              aliases := cleanList aliases0
              tags := cleanList tags1
              difficulty := difficultyField q.difficulty
              lang := q.lang.getD (.jstr ['r', 'u']) }
      | _ => none
  | _ => none

/-! ### `quiz.py`: answer checking, tag listing, shuffled draw bags -/

/-- `QuizEngine.check_answer`: normalize the attempt, reject the empty
result, otherwise test membership in the set of normalized answers and
aliases. -/
def checkAnswer (q : Question) (userText : List Char) : Bool :=
  let t := normalize userText
  if t = [] then false
  else (q.answers.map normalize ++ q.aliases.map normalize).contains t

/-- Lexicographic (code-point) order on strings, as Python `sorted` uses. -/
def lexLe : List Char → List Char → Bool
  | [], _ => true
  | _ :: _, [] => false
  | a :: as, b :: bs => if a = b then lexLe as bs else decide (a < b)

/-- Insertion into a `lexLe`-sorted list. -/
def sortedInsert (x : List Char) : List (List Char) → List (List Char)
  | [] => [x]
  | y :: ys => if lexLe x y then x :: y :: ys else y :: sortedInsert x ys

/-- Insertion sort: the model of Python `sorted` on a list of strings. -/
def sortStrs : List (List Char) → List (List Char)
  | [] => []
  | x :: xs => sortedInsert x (sortStrs xs)

/-- Deduplication of a list of strings: the model of collecting into a
Python `set` (iteration order is irrelevant because the callers sort). -/
def dedupStrs : List (List Char) → List (List Char)
  | [] => []
  | x :: xs => x :: (dedupStrs xs).filter (fun y => ¬ y = x)

/-- `QuizEngine.list_tags`: the distinct tags over all questions, with the
reserved tag `all` discarded, sorted. -/
def listTags (questions : List Question) : List (List Char) :=
  sortStrs ((dedupStrs (questions.flatMap (fun q => q.tags))).filter (fun t => ¬ t = allTag))

/-- `QuizEngine._ids_for_tag`: every id for the reserved tag `all`;
otherwise the ids of the questions one of whose normalized tags equals the
normalized requested tag. -/
def idsForTag (questions : List Question) (tag : List Char) : List (List Char) :=
  if tag = allTag then questions.map (fun q => q.id)
  else
    let tagN := normalize tag
    (questions.filter (fun q => (q.tags.map normalize).contains tagN)).map (fun q => q.id)

/-- Fuel-indexed Fisher–Yates selection: draw the element at the index the
PRNG picks, then recurse on the remainder.  `rnd` abstracts the stream of
draws of the underlying pseudo-random generator (`rnd n` is reduced mod `n`,
the number of elements still to place, so every choice is in range). -/
def pyShuffleAux {α : Type} (rnd : Nat → Nat) : Nat → List α → List α
  | 0, _ => []
  | _, [] => []
  | fuel + 1, x :: xs =>
    let n := xs.length + 1
    let i := rnd n % n
    (x :: xs).getD i x :: pyShuffleAux rnd fuel ((x :: xs).eraseIdx i)

/-- Model of `random.shuffle` / `random.Random(seed).shuffle`: a
permutation of the input determined by the PRNG stream `rnd`.  Theorems
quantify over `rnd`, hence over every seed / generator state. -/
def pyShuffle {α : Type} (rnd : Nat → Nat) (l : List α) : List α :=
  pyShuffleAux rnd l.length l

/-- Python `list.pop()`: remove and return the LAST element; `none` models
the `IndexError` on an empty list. -/
def popLast {α : Type} (l : List α) : Option (α × List α) :=
  match l.getLast? with
  | none => none
  | some a => some (a, l.dropLast)

/-- The tag branch of `QuizEngine.next_question`, acting on the draw bag of
one tag (`[]` models both "tag not in `_bag_by_tag`" and an emptied bag):
refill the bag with a shuffle of the eligible ids when it is empty, then
pop.  The result is the drawn id and the new bag; `none` models the
unhandled `IndexError` when the refilled bag is still empty. -/
def nextQuestionTag (eligible : List (List Char)) (rnd : Nat → Nat)
    (bag : List (List Char)) : Option (List Char × List (List Char)) :=
  let bag1 := if bag = [] then pyShuffle rnd eligible else bag
  popLast bag1

/-- `n` consecutive draws through `nextQuestionTag`, collecting the drawn
ids in order. -/
def drawN (eligible : List (List Char)) (rnd : Nat → Nat) :
    Nat → List (List Char) → Option (List (List Char) × List (List Char))
  | 0, bag => some ([], bag)
  | n + 1, bag =>
    match nextQuestionTag eligible rnd bag with
    | none => none
    | some (q, bag') =>
      match drawN eligible rnd n bag' with
      | none => none
      | some (qs, bagf) => some (q :: qs, bagf)

/-! ### `main.py`: hint planning, reveal positions, round state, rounds -/

/-- `QUESTION_TTL_SEC` from `main.py`. -/
def QUESTION_TTL_SEC : Nat := 25

/-- The hint plan record of `main.py`. -/
structure HintPlan where
  hint_total : Nat
  interval_sec : Nat
  deriving DecidableEq, Repr

/-- `choose_hint_plan`: the hint count is a step function of the number `n`
of alphanumeric characters of the display answer; the interval spreads the
hints over the TTL leaving the last ~7 seconds free. -/
def chooseHintPlan (answerDisplay : List Char) : HintPlan :=
  let n := (answerDisplay.filter pyIsAlnum).length
  let hintTotal : Nat :=
    if n ≤ 2 then 0
    else if n ≤ 4 then 1
    else if n ≤ 7 then 2
    else if n ≤ 10 then 3
    else 4
  if hintTotal ≤ 0 then ⟨0, 9999⟩
  else
    let available := max 5 (QUESTION_TTL_SEC - 7)
    let interval := max 4 (available / (hintTotal + 1))
    ⟨hintTotal, interval⟩

/-- The indices of the alphanumeric characters of the display answer, in
left-to-right order (the list comprehension of `shuffled_alnum_positions`). -/
def alnumPositions (answerDisplay : List Char) : List Nat :=
  (List.range answerDisplay.length).filter (fun i => pyIsAlnum (answerDisplay.getD i ' '))

/-- `shuffled_alnum_positions`: the alphanumeric indices shuffled by the
PRNG seeded with the question id; `rnd` abstracts the seeded generator
(fixed seed ⇒ fixed `rnd` ⇒ fixed output). -/
def shuffledAlnumPositions (answerDisplay : List Char) (rnd : Nat → Nat) : List Nat :=
  pyShuffle rnd (alnumPositions answerDisplay)

/-- The prefix length used by `hint_watcher` at a given hint level:
`k = max(1, ceil(n * level / (hint_total + 1)))`, the ceiling taken over
exact rationals (`(n * level + t) / (t + 1)` is the ceiling division). -/
def revealCount (n level hintTotal : Nat) : Nat :=
  max 1 ((n * level + hintTotal) / (hintTotal + 1))

/-- The positions revealed at a hint level: the first `revealCount` entries
of the seeded shuffle (`reveal_positions = set(total_positions[:k])` in
`hint_watcher`). -/
def revealPositions (answerDisplay : List Char) (rnd : Nat → Nat)
    (level hintTotal : Nat) : List Nat :=
  (shuffledAlnumPositions answerDisplay rnd).take
    (revealCount (alnumPositions answerDisplay).length level hintTotal)

/-- The round-state row of the `state` table, as read back by `get_state`
(`round_current`, `hint_level`, `hint_total` are read with an `or 0`
default, so they are plain integers here). -/
structure RoundState where
  active : Bool
  current_qid : Option (List Char)
  winner_user_id : Option Int
  deadline_ts : Option Int
  tag : Option (List Char)
  round_total : Option Int
  round_current : Int
  session_id : Option Int
  hint_level : Int
  hint_total : Int
  hint_answer : Option (List Char)
  next_hint_ts : Option Int
  deriving DecidableEq, Repr

/-- The `set_state(...)` call of `stop_quiz`: every per-question field is
written explicitly (a full-row reset to the inactive baseline). -/
def stopQuizSet (st : RoundState) : RoundState :=
  { st with
    active := false
    current_qid := none
    winner_user_id := none
    deadline_ts := none
    tag := some allTag
    round_total := none
    round_current := 0
    session_id := none
    hint_level := 0
    hint_total := 0
    hint_answer := none
    next_hint_ts := none }

/-- The `set_state(active=0, deadline_ts=None, next_hint_ts=None)` call of
the round-completion branch of `post_next_question`: `set_state` is a
partial update, so only these three columns change. -/
def finishRoundSet (st : RoundState) : RoundState :=
  { st with
    active := false
    deadline_ts := none
    next_hint_ts := none }

/-- The guard of the round-completion branch:
`total is not None and cur >= total`. -/
def finishTriggered (st : RoundState) : Prop :=
  ∃ t, st.round_total = some t ∧ st.round_current ≥ t

/-- The spec's "all per-question fields are cleared" condition on an
inactive state. -/
def perQuestionCleared (st : RoundState) : Prop :=
  st.current_qid = none ∧ st.winner_user_id = none ∧ st.deadline_ts = none ∧
    st.hint_level = 0 ∧ st.hint_total = 0 ∧ st.hint_answer = none ∧
    st.next_hint_ts = none ∧ st.session_id = none

/-- Validity of the digit tail of an integer literal: digits with single
interior underscores (Python 3 accepts `1_0`). -/
def intDigitsRest : List Char → Bool
  | [] => true
  | '_' :: c :: cs => c.isDigit && intDigitsRest cs
  | '_' :: [] => false
  | c :: cs => c.isDigit && intDigitsRest cs

/-- A valid unsigned integer-literal body. -/
def validIntBody : List Char → Bool
  | [] => false
  | c :: cs => c.isDigit && intDigitsRest cs

/-- Model of Python `int(str)` (ASCII fragment): strip whitespace, an
optional sign, then digits with optional interior underscores; `none`
models the `ValueError`. -/
def pyParseInt (s : List Char) : Option Int :=
  let t := pyStrip s
  let signBody : Int × List Char :=
    match t with
    | '+' :: r => (1, r)
    | '-' :: r => (-1, r)
    | r => (1, r)
  if validIntBody signBody.2 then
    some (signBody.1 * (digitsToNat (signBody.2.filter (fun c => ¬ c = '_')) : Int))
  else none

/-- The rounds computation of `cmd_quiz_start` on the split message text:
default 10, `int(parts[2])` when a third token exists (falling back to 10
on `ValueError`), then clamped by `max(1, min(rounds, 50))`. -/
def cmdQuizStartRounds (parts : List (List Char)) : Int :=
  let rounds : Int := if parts.length ≥ 3 then (pyParseInt (parts.getD 2 [])).getD 10 else 10
  max 1 (min rounds 50)

/-- The rounds computation of `cb_choose_round` on the callback payload
(the text after `qs_round:`): `int(payload)` falling back to 10 on
`ValueError`, then clamped by `max(1, min(rounds, 50))`. -/
def cbChooseRoundRounds (payload : List Char) : Int :=
  max 1 (min ((pyParseInt payload).getD 10) 50)

/-! ### The canonical form preserved by `normalize` (ASCII fragment) -/

/-- Characters that `normalize` leaves unchanged: lowercase-stable ASCII
word characters, and the plain space. -/
def canonChar (c : Char) : Bool :=
  (isWordChar c && decide (c.toNat < 128) && decide (pyLower c = c)) || c = ' '

/-- No two adjacent whitespace characters. -/
def NoAdjSpace (l : List Char) : Prop :=
  List.Chain' (fun a b => ¬ (isSpaceChar a = true ∧ isSpaceChar b = true)) l

/-- The canonical-form invariant of `normalize` output on ASCII input:
canonical characters only, no adjacent whitespace, and no leading or
trailing whitespace. -/
def CanonStr (l : List Char) : Prop :=
  (∀ c ∈ l, canonChar c = true) ∧ NoAdjSpace l ∧
    (∀ c, l.head? = some c → isSpaceChar c = false) ∧
    (∀ c, l.getLast? = some c → isSpaceChar c = false)

/-! ### Concrete instances used by counterexamples and witnesses -/

/-- A question whose only accepted answer is `Paris`. -/
def parisQ : Question :=
  { id := ['q', '1']
    category := none
    question := ['C', 'a', 'p', 'i', 't', 'a', 'l', '?']
    answers := [['P', 'a', 'r', 'i', 's']]
    aliases := []
    tags := []
    difficulty := .jint 2
    lang := .jstr ['r', 'u'] }

/-- A question carrying the single tag `movies`. -/
def moviesQ : Question :=
  { id := ['q', '2']
    category := none
    question := ['Q', '?']
    answers := [['A']]
    aliases := []
    tags := [['m', 'o', 'v', 'i', 'e', 's']]
    difficulty := .jint 2
    lang := .jstr ['r', 'u'] }

/-- A mid-game round state on its last question, about to take the
round-completion branch of `post_next_question`. -/
def lastRoundState : RoundState :=
  { active := true
    current_qid := some ['q', '1']
    winner_user_id := some 7
    deadline_ts := some 100
    tag := some allTag
    round_total := some 3
    round_current := 3
    session_id := some 1
    hint_level := 2
    hint_total := 3
    hint_answer := some ['P', 'a', 'r', 'i', 's']
    next_hint_ts := some 90 }

/-- A degenerate PRNG stream (always draws index 0); any fixed stream
instantiates the universally quantified randomness. -/
def rnd0 : Nat → Nat := fun _ => 0

/-- A raw record whose difficulty is the non-numeric string `hard`. -/
def rawHardQ : RawQuestion :=
  { question := some (.jstr ['Q', '?'])
    answers := some (.jlist [.jstr ['A']])
    difficulty := some (.jstr ['h', 'a', 'r', 'd']) }

/-! ## Theorems -/

/-- The hint-total projection of `choose_hint_plan` as a single
conditional. -/
theorem chooseHintPlan_hint_total (answer : List Char) :
    (chooseHintPlan answer).hint_total =
      (if (answer.filter pyIsAlnum).length ≤ 2 then 0
       else if (answer.filter pyIsAlnum).length ≤ 4 then 1
       else if (answer.filter pyIsAlnum).length ≤ 7 then 2
       else if (answer.filter pyIsAlnum).length ≤ 10 then 3 else 4) := by
  simp only [chooseHintPlan]
  by_cases h2 : (answer.filter pyIsAlnum).length ≤ 2 <;>
    by_cases h4 : (answer.filter pyIsAlnum).length ≤ 4 <;>
      by_cases h7 : (answer.filter pyIsAlnum).length ≤ 7 <;>
        by_cases h10 : (answer.filter pyIsAlnum).length ≤ 10 <;>
          simp [h2, h4, h7, h10]

/-- C2 counterexample: on the round-completion branch of
`post_next_question` (here: the final round of a three-round game, with a
question, winner, hints and session still recorded) the state becomes
inactive but the per-question fields are NOT all cleared: the current
question id survives the partial `set_state` update. -/
theorem claim_C2_counterexample :
    finishTriggered lastRoundState ∧
      (finishRoundSet lastRoundState).active = false ∧
      ¬ perQuestionCleared (finishRoundSet lastRoundState) := by
  refine ⟨⟨3, rfl, by decide⟩, rfl, fun h => ?_⟩
  simpa [perQuestionCleared, finishRoundSet, lastRoundState] using h.1

/-- C2 amended: `stop_quiz` does establish the cleared-state invariant,
but the round-completion branch of `post_next_question` sets `active` to
false while clearing only `deadline_ts` and `next_hint_ts`: the current
question id, winner, hint fields and session id keep their old values. -/
theorem claim_C2_amended (st : RoundState) :
    ((stopQuizSet st).active = false ∧ perQuestionCleared (stopQuizSet st)) ∧
      ((finishRoundSet st).active = false ∧
        (finishRoundSet st).deadline_ts = none ∧
        (finishRoundSet st).next_hint_ts = none ∧
        (finishRoundSet st).current_qid = st.current_qid ∧
        (finishRoundSet st).winner_user_id = st.winner_user_id ∧
        (finishRoundSet st).hint_level = st.hint_level ∧
        (finishRoundSet st).hint_total = st.hint_total ∧
        (finishRoundSet st).hint_answer = st.hint_answer ∧
        (finishRoundSet st).session_id = st.session_id) := by
  refine ⟨⟨rfl, ?_⟩, rfl, rfl, rfl, rfl, rfl, rfl, rfl, rfl, rfl⟩
  exact ⟨rfl, rfl, rfl, rfl, rfl, rfl, rfl, rfl⟩

/-- C7: the hint total is the documented step function of the count `n`
of alphanumeric characters of the display answer: `n≤2→0`, `n≤4→1`,
`n≤7→2`, `n≤10→3`, else `4`. -/
theorem claim_C7_main (answer : List Char) :
    ((answer.filter pyIsAlnum).length ≤ 2 → (chooseHintPlan answer).hint_total = 0) ∧
      (3 ≤ (answer.filter pyIsAlnum).length ∧ (answer.filter pyIsAlnum).length ≤ 4 →
        (chooseHintPlan answer).hint_total = 1) ∧
      (5 ≤ (answer.filter pyIsAlnum).length ∧ (answer.filter pyIsAlnum).length ≤ 7 →
        (chooseHintPlan answer).hint_total = 2) ∧
      (8 ≤ (answer.filter pyIsAlnum).length ∧ (answer.filter pyIsAlnum).length ≤ 10 →
        (chooseHintPlan answer).hint_total = 3) ∧
      (11 ≤ (answer.filter pyIsAlnum).length → (chooseHintPlan answer).hint_total = 4) := by
  rw [chooseHintPlan_hint_total]
  refine ⟨fun h => ?_, fun h => ?_, fun h => ?_, fun h => ?_, fun h => ?_⟩ <;>
    split_ifs <;> omega

/-- C7 witness: `n = 2` gives 0 hints, `n = 5` gives 2, `n = 11` gives 4
(the cap). -/
theorem claim_C7_witness :
    (chooseHintPlan ['a', 'b']).hint_total = 0 ∧
      (chooseHintPlan ['a', 'b', 'c', 'd', 'e']).hint_total = 2 ∧
      (chooseHintPlan ['a', 'b', 'c', 'd', 'e', 'f', 'g', 'h', 'i', 'j', 'k']).hint_total = 4 :=
  ⟨(claim_C7_main ['a', 'b']).1 (by decide),
    (claim_C7_main ['a', 'b', 'c', 'd', 'e']).2.2.1 (by decide),
    (claim_C7_main
      ['a', 'b', 'c', 'd', 'e', 'f', 'g', 'h', 'i', 'j', 'k']).2.2.2.2 (by decide)⟩

/-- C10: on both start paths the requested round count is clamped to
`1..50` (`max(1, min(r, 50))`), a non-integer argument falls back to 10,
and the result always lies in `1..50`. -/
theorem claim_C10_main :
    (∀ parts r, 3 ≤ parts.length → pyParseInt (parts.getD 2 []) = some r →
      cmdQuizStartRounds parts = max 1 (min r 50)) ∧
      (∀ parts, 3 ≤ parts.length → pyParseInt (parts.getD 2 []) = none →
        cmdQuizStartRounds parts = 10) ∧
      (∀ parts : List (List Char), parts.length < 3 → cmdQuizStartRounds parts = 10) ∧
      (∀ payload r, pyParseInt payload = some r →
        cbChooseRoundRounds payload = max 1 (min r 50)) ∧
      (∀ payload, pyParseInt payload = none → cbChooseRoundRounds payload = 10) ∧
      (∀ parts, 1 ≤ cmdQuizStartRounds parts ∧ cmdQuizStartRounds parts ≤ 50) ∧
      (∀ payload, 1 ≤ cbChooseRoundRounds payload ∧ cbChooseRoundRounds payload ≤ 50) := by
  refine ⟨fun parts r h3 hp => ?_, fun parts h3 hp => ?_, fun parts h3 => ?_,
    fun payload r hp => ?_, fun payload hp => ?_, fun parts => ?_, fun payload => ?_⟩ <;>
    simp only [cmdQuizStartRounds, cbChooseRoundRounds]
  · rw [if_pos h3, hp]
    rfl
  · rw [if_pos h3, hp]
    rfl
  · rw [if_neg (by omega)]
    rfl
  · rw [hp]
    rfl
  · rw [hp]
    rfl
  · constructor
    · exact le_max_left 1 _
    · exact max_le (by norm_num) (min_le_right _ _)
  · constructor
    · exact le_max_left 1 _
    · exact max_le (by norm_num) (min_le_right _ _)

/-- C10 witness: `/quiz_start all 99` clamps to 50; a non-numeric third
token falls back to 10; the callback payload `-7` clamps to 1. -/
theorem claim_C10_witness :
    cmdQuizStartRounds [['x'], ['a', 'l', 'l'], ['9', '9']] = max 1 (min 99 50) ∧
      cmdQuizStartRounds [['x'], ['a', 'l', 'l'], ['z']] = 10 ∧
      cbChooseRoundRounds ['-', '7'] = max 1 (min (-7) 50) :=
  ⟨claim_C10_main.1 [['x'], ['a', 'l', 'l'], ['9', '9']] 99 (by decide) (by decide),
    claim_C10_main.2.1 [['x'], ['a', 'l', 'l'], ['z']] (by decide) (by decide),
    claim_C10_main.2.2.2.1 ['-', '7'] (-7) (by decide)⟩

/-- C6: answer matching is exact membership after normalization, and the
inputs `Paris!`, `paris` and `  PARIS  ` all normalize to the same
canonical form and all match the accepted answer `Paris`. -/
theorem claim_C6_main :
    (∀ q userText, checkAnswer q userText =
      (decide (¬ normalize userText = []) &&
        (q.answers.map normalize ++ q.aliases.map normalize).contains (normalize userText))) ∧
      checkAnswer parisQ ['P', 'a', 'r', 'i', 's', '!'] = true ∧
      checkAnswer parisQ ['p', 'a', 'r', 'i', 's'] = true ∧
      checkAnswer parisQ [' ', ' ', 'P', 'A', 'R', 'I', 'S', ' ', ' '] = true ∧
      normalize ['P', 'a', 'r', 'i', 's', '!'] = normalize ['p', 'a', 'r', 'i', 's'] ∧
      normalize [' ', ' ', 'P', 'A', 'R', 'I', 'S', ' ', ' '] = normalize ['p', 'a', 'r', 'i', 's'] := by
  refine ⟨fun q t => ?_, by decide, by decide, by decide, by decide, by decide⟩
  by_cases h : normalize t = [] <;> simp [checkAnswer, h]

/-- C8 counterexample: a record accepted at load time whose difficulty is
the non-numeric string `hard` keeps that string as its difficulty field —
it is NOT defaulted to 2. -/
theorem claim_C8_counterexample :
    (normalizeQuestion ['f'] rawHardQ).map Question.difficulty =
        some (.jstr ['h', 'a', 'r', 'd']) ∧
      ¬ (normalizeQuestion ['f'] rawHardQ).map Question.difficulty = some (.jint 2) := by
  refine ⟨rfl, fun h => ?_⟩
  have h2 : (JVal.jstr ['h', 'a', 'r', 'd']) = .jint 2 := Option.some.inj h
  exact JVal.noConfusion h2

/-- UInt32 order transfers to `toNat`. -/
theorem uint32_le_iff {a b : UInt32} : (a ≤ b) ↔ a.toNat ≤ b.toNat := by
  simp [UInt32.le_def, BitVec.le_def]
  rfl

/-- Char order transfers to `toNat`. -/
theorem char_le_iff {a b : Char} : (a ≤ b) ↔ a.toNat ≤ b.toNat := by
  rw [Char.le_def]
  exact uint32_le_iff

/-- Char equality transfers to `toNat`. -/
theorem char_eq_iff {a b : Char} : a = b ↔ a.toNat = b.toNat := by
  constructor
  · intro h
    rw [h]
  · intro h
    exact Char.ext (UInt32.ext h)

/-- `Char.ofNat` below the surrogate range keeps its code point. -/
theorem char_toNat_ofNat {n : Nat} (h : n < 55296) : (Char.ofNat n).toNat = n := by
  rw [Char.ofNat, dif_pos (Or.inl h : Nat.isValidChar n)]
  show (UInt32.toBitVec ⟨n, by omega⟩).toNat = n
  simp

/-- `Char.isDigit` as a code-point interval. -/
theorem char_isDigit_iff {c : Char} : c.isDigit = true ↔ 48 ≤ c.toNat ∧ c.toNat ≤ 57 := by
  have h0 : ((48 : UInt32)).toNat = 48 := by decide
  have h9 : ((57 : UInt32)).toNat = 57 := by decide
  simp only [Char.isDigit, GE.ge, Bool.and_eq_true, decide_eq_true_eq, uint32_le_iff, h0, h9]
  exact Iff.rfl

/-- Every character of a natural number's decimal rendering is a digit,
and the rendering is non-empty. -/
theorem natDigits_digits (n : Nat) :
    ¬ natDigits n = [] ∧ (natDigits n).all Char.isDigit = true := by
  induction n using Nat.strong_induction_on with
  | _ n ih =>
    rw [natDigits]
    split
    · rename_i h
      refine ⟨by simp, ?_⟩
      simp only [List.all_cons, List.all_nil, Bool.and_true]
      rw [char_isDigit_iff, char_toNat_ofNat (by omega)]
      omega
    · rename_i h
      have ih1 := ih (n / 10) (Nat.div_lt_self (by omega) (by omega))
      refine ⟨by simp, ?_⟩
      rw [List.all_append]
      refine (Bool.and_eq_true _ _).mpr ⟨ih1.2, ?_⟩
      simp only [List.all_cons, List.all_nil, Bool.and_true]
      rw [char_isDigit_iff, char_toNat_ofNat (by omega)]
      have hm := Nat.mod_lt n (show 0 < 10 by omega)
      omega

/-- C8 amended: the difficulty of an accepted record is computed by the
`difficultyField` rule: default 2 only when the key is absent; a
numeric-looking value (digit-only string form, in particular any
nonnegative integer or digit string) is converted with `int(...)`;
any other present value — including non-numeric strings and `null` —
is kept unchanged, not defaulted to 2. -/
theorem claim_C8_amended :
    (∀ fallbackId raw q', normalizeQuestion fallbackId raw = some q' →
      q'.difficulty = difficultyField raw.difficulty) ∧
      difficultyField none = .jint 2 ∧
      (∀ v, isDigitStr (pyStrJVal v) = true →
        difficultyField (some v) = .jint (jvalToInt v)) ∧
      (∀ v, isDigitStr (pyStrJVal v) = false → difficultyField (some v) = v) ∧
      (∀ n : Nat, difficultyField (some (.jint n)) = .jint n) := by
  refine ⟨fun fallbackId raw q' h => ?_, rfl, fun v hv => ?_, fun v hv => ?_, fun n => ?_⟩
  · unfold normalizeQuestion at h
    repeat' split at h
    all_goals try exact Option.noConfusion h
    all_goals
      have e := Option.some.inj h
      subst e
      rfl
  · simp [difficultyField, hv]
  · simp [difficultyField, hv]
  · have hni : ¬ ((n : Int) < 0) := by omega
    have hab := natDigits_digits ((n : Int)).natAbs
    have hd : isDigitStr (pyStrJVal (.jint (n : Int))) = true := by
      simp only [pyStrJVal, pyStrInt, if_neg hni, isDigitStr, Bool.decide_and,
        Bool.and_eq_true, decide_eq_true_eq]
      exact ⟨hab.1, hab.2⟩
    simp [difficultyField, hd, jvalToInt]

/-- C8 witness: the amended difficulty rule applied to concrete records:
the accepted record with difficulty `hard` keeps it, the digit string `3`
converts, the string `hard` is left unchanged. -/
theorem claim_C8_witness :
    Question.difficulty
        { id := ['f'], category := none, question := ['Q', '?'], answers := [['A']],
          aliases := [], tags := [], difficulty := .jstr ['h', 'a', 'r', 'd'],
          lang := .jstr ['r', 'u'] } = difficultyField rawHardQ.difficulty ∧
      difficultyField (some (.jstr ['3'])) = .jint (jvalToInt (.jstr ['3'])) ∧
      difficultyField (some (.jstr ['h', 'a', 'r', 'd'])) = .jstr ['h', 'a', 'r', 'd'] :=
  ⟨claim_C8_amended.1 ['f'] rawHardQ _ rfl,
    claim_C8_amended.2.2.1 (.jstr ['3']) rfl,
    claim_C8_amended.2.2.2.1 (.jstr ['h', 'a', 'r', 'd']) rfl⟩

/-- Removing the element drawn at a valid index is a permutation step. -/
theorem getD_cons_eraseIdx_perm {α : Type} (d : α) :
    ∀ (l : List α) (i : Nat), i < l.length → List.Perm (l.getD i d :: l.eraseIdx i) l
  | a :: l, 0, _ => by simp
  | a :: l, i + 1, h => by
    have ih := getD_cons_eraseIdx_perm d l i (by simpa using h)
    simp only [List.getD_cons_succ, List.eraseIdx_cons_succ]
    exact (List.Perm.swap a (l.getD i d) (l.eraseIdx i)).trans (ih.cons a)

/-- The fuel-indexed Fisher–Yates shuffle permutes its input. -/
theorem pyShuffleAux_perm {α : Type} (rnd : Nat → Nat) :
    ∀ fuel (l : List α), l.length ≤ fuel → List.Perm (pyShuffleAux rnd fuel l) l
  | 0, [], _ => List.Perm.refl []
  | 0, a :: l, h => absurd h (by simp)
  | fuel + 1, [], _ => List.Perm.refl []
  | fuel + 1, x :: xs, h => by
    simp only [pyShuffleAux]
    have hilt : rnd (xs.length + 1) % (xs.length + 1) < (x :: xs).length := by
      simp only [List.length_cons]
      exact Nat.mod_lt _ (by omega)
    have hperm := getD_cons_eraseIdx_perm x (x :: xs) _ hilt
    have hlen : ((x :: xs).eraseIdx (rnd (xs.length + 1) % (xs.length + 1))).length ≤ fuel := by
      rw [List.length_eraseIdx]
      simp only [List.length_cons] at h hilt ⊢
      rw [if_pos hilt]
      omega
    have ih := pyShuffleAux_perm rnd fuel _ hlen
    exact (ih.cons _).trans hperm

/-- `pyShuffle` permutes its input, whatever the PRNG stream does. -/
theorem pyShuffle_perm {α : Type} (rnd : Nat → Nat) (l : List α) :
    List.Perm (pyShuffle rnd l) l :=
  pyShuffleAux_perm rnd l.length l (Nat.le_refl _)

/-- Draining an existing bag: `bag.length` draws pop it from the back,
never reshuffling, and return exactly the bag in reverse order. -/
theorem drawN_bag (eligible : List (List Char)) (rnd : Nat → Nat)
    (bag : List (List Char)) :
    drawN eligible rnd bag.length bag = some (bag.reverse, []) := by
  induction bag using List.reverseRecOn with
  | nil => rfl
  | append_singleton xs x ih =>
    have hlen : (xs ++ [x]).length = xs.length + 1 := by simp
    rw [hlen]
    have hpop : nextQuestionTag eligible rnd (xs ++ [x]) = some (x, xs) := by
      simp only [nextQuestionTag, popLast, if_neg (by simp : ¬ xs ++ [x] = [])]
      rw [List.getLast?_concat, List.dropLast_concat]
    simp only [drawN, hpop, ih, List.reverse_append, List.reverse_cons, List.reverse_nil,
      List.nil_append, List.singleton_append]

/-- Splitting a run of draws. -/
theorem drawN_add (eligible : List (List Char)) (rnd : Nat → Nat) :
    ∀ (a b : Nat) (bag : List (List Char)),
      drawN eligible rnd (a + b) bag =
        match drawN eligible rnd a bag with
        | none => none
        | some (ds, bag') =>
          match drawN eligible rnd b bag' with
          | none => none
          | some (es, bagf) => some (ds ++ es, bagf)
  | 0, b, bag => by
    simp only [Nat.zero_add, drawN]
    cases hb : drawN eligible rnd b bag with
    | none => rfl
    | some p => simp
  | a + 1, b, bag => by
    have hadd : a + 1 + b = (a + b) + 1 := by omega
    rw [hadd]
    simp only [drawN]
    cases hq : nextQuestionTag eligible rnd bag with
    | none => rfl
    | some p =>
      obtain ⟨q, bag'⟩ := p
      dsimp only
      rw [drawN_add eligible rnd a b bag']
      cases ha : drawN eligible rnd a bag' with
      | none => rfl
      | some dp =>
        obtain ⟨ds, bag''⟩ := dp
        dsimp only
        cases hb : drawN eligible rnd b bag'' with
        | none => rfl
        | some ep => simp

/-- A fresh draw sequence over a non-empty eligible set: the first
`eligible.length` draws return the shuffled bag in reverse order and
empty the bag. -/
theorem drawN_fresh (eligible : List (List Char)) (rnd : Nat → Nat)
    (hne : ¬ eligible = []) :
    drawN eligible rnd eligible.length [] =
      some ((pyShuffle rnd eligible).reverse, []) := by
  have hlenS : (pyShuffle rnd eligible).length = eligible.length :=
    (pyShuffle_perm rnd eligible).length_eq
  have hSne : ¬ pyShuffle rnd eligible = [] := by
    intro hS
    rw [hS] at hlenS
    exact hne (List.eq_nil_of_length_eq_zero hlenS.symm)
  cases hlen : eligible.length with
  | zero => exact absurd (List.eq_nil_of_length_eq_zero hlen) hne
  | succ m =>
    rcases List.eq_nil_or_concat (pyShuffle rnd eligible) with hS | ⟨xs, x, hS⟩
    · exact absurd hS hSne
    · rw [List.concat_eq_append] at hS
      have hpop : nextQuestionTag eligible rnd [] = some (x, xs) := by
        simp only [nextQuestionTag, popLast, if_true]
        rw [hS, List.getLast?_concat, List.dropLast_concat]
      have hxs : xs.length = m := by
        have hms := hlenS
        rw [hS] at hms
        simp at hms
        omega
      simp only [drawN, hpop]
      rw [← hxs, drawN_bag eligible rnd xs, hS]
      simp

/-- C5: with a duplicate-free eligible id set of size `N`, `N` consecutive
draws from a fresh bag return a permutation of all eligible ids (no
repeats), the bag ends empty, and — for a non-empty scope — the
`(N+1)`-th draw reshuffles and returns an id that already appeared among
the first `N`. -/
theorem claim_C5_main (eligible : List (List Char)) (rnd : Nat → Nat)
    (hnd : eligible.Nodup) :
    ∃ ds : List (List Char),
      drawN eligible rnd eligible.length [] = some (ds, []) ∧
        List.Perm ds eligible ∧ ds.Nodup ∧
        (¬ eligible = [] →
          ∃ q bagAfter, drawN eligible rnd (eligible.length + 1) [] =
              some (ds ++ [q], bagAfter) ∧ q ∈ ds) := by
  by_cases hne : eligible = []
  · subst hne
    exact ⟨[], rfl, List.Perm.refl [], List.nodup_nil, fun h => absurd rfl h⟩
  · have hS := pyShuffle_perm rnd eligible
    have hfresh := drawN_fresh eligible rnd hne
    have hperm : List.Perm (pyShuffle rnd eligible).reverse eligible :=
      ((pyShuffle rnd eligible).reverse_perm).trans hS
    refine ⟨(pyShuffle rnd eligible).reverse, hfresh, hperm, hperm.nodup_iff.mpr hnd,
      fun _ => ?_⟩
    have hlenS : (pyShuffle rnd eligible).length = eligible.length := hS.length_eq
    have hSne : ¬ pyShuffle rnd eligible = [] := by
      intro hS0
      rw [hS0] at hlenS
      exact hne (List.eq_nil_of_length_eq_zero hlenS.symm)
    rcases List.eq_nil_or_concat (pyShuffle rnd eligible) with hS0 | ⟨xs, x, hS0⟩
    · exact absurd hS0 hSne
    · rw [List.concat_eq_append] at hS0
      have hone : drawN eligible rnd 1 [] = some ([x], xs) := by
        have hpop : nextQuestionTag eligible rnd [] = some (x, xs) := by
          simp only [nextQuestionTag, popLast, if_true]
          rw [hS0, List.getLast?_concat, List.dropLast_concat]
        simp [drawN, hpop]
      refine ⟨x, xs, ?_, ?_⟩
      · rw [drawN_add eligible rnd eligible.length 1 [], hfresh]
        dsimp only
        rw [hone]
      · have hx : x ∈ pyShuffle rnd eligible := by
          rw [hS0]
          exact List.mem_append_right xs (List.mem_singleton_self x)
        exact hperm.symm.subset (hS.subset hx)

/-- C5 witness: three eligible ids, a concrete PRNG stream. -/
theorem claim_C5_witness :
    ([['a'], ['b'], ['c']] : List (List Char)).Nodup ∧
      ∃ ds : List (List Char),
        drawN [['a'], ['b'], ['c']] rnd0 ([['a'], ['b'], ['c']] : List (List Char)).length [] =
            some (ds, []) ∧
          List.Perm ds [['a'], ['b'], ['c']] ∧ ds.Nodup ∧
          (¬ ([['a'], ['b'], ['c']] : List (List Char)) = [] →
            ∃ q bagAfter,
              drawN [['a'], ['b'], ['c']] rnd0
                  (([['a'], ['b'], ['c']] : List (List Char)).length + 1) [] =
                some (ds ++ [q], bagAfter) ∧ q ∈ ds) :=
  ⟨by decide, claim_C5_main [['a'], ['b'], ['c']] rnd0 (by decide)⟩

/-- Membership in a `sortedInsert`. -/
theorem mem_sortedInsert {x y : List Char} :
    ∀ {l : List (List Char)}, y ∈ sortedInsert x l ↔ y = x ∨ y ∈ l
  | [] => by simp [sortedInsert]
  | z :: zs => by
    simp only [sortedInsert]
    split
    · simp
    · rw [List.mem_cons, mem_sortedInsert]
      simp [or_comm, or_assoc, or_left_comm]

/-- The insertion sort modelling `sorted(...)` preserves membership. -/
theorem mem_sortStrs {x : List Char} :
    ∀ {l : List (List Char)}, x ∈ sortStrs l ↔ x ∈ l
  | [] => Iff.rfl
  | z :: zs => by
    simp only [sortStrs]
    rw [mem_sortedInsert, mem_sortStrs]
    simp

/-- The `set(...)` model preserves membership. -/
theorem mem_dedupStrs {x : List Char} :
    ∀ {l : List (List Char)}, x ∈ dedupStrs l ↔ x ∈ l
  | [] => Iff.rfl
  | z :: zs => by
    simp only [dedupStrs, List.mem_cons, List.mem_filter]
    rw [show ∀ a b : Prop, (a ∨ b) ↔ (a ∨ b) from fun a b => Iff.rfl]
    constructor
    · rintro (rfl | ⟨hm, _⟩)
      · exact Or.inl rfl
      · exact Or.inr (mem_dedupStrs.mp hm)
    · rintro (rfl | hm)
      · exact Or.inl rfl
      · by_cases hx : x = z
        · exact Or.inl hx
        · exact Or.inr ⟨mem_dedupStrs.mpr hm, by simpa using hx⟩

/-- A tag listed by `list_tags` is carried by some question and is not the
reserved tag `all`. -/
theorem mem_listTags {questions : List Question} {t : List Char}
    (h : t ∈ listTags questions) :
    ¬ t = allTag ∧ ∃ q ∈ questions, t ∈ q.tags := by
  rw [listTags, mem_sortStrs, List.mem_filter] at h
  obtain ⟨hmem, hne⟩ := h
  rw [mem_dedupStrs, List.mem_flatMap] at hmem
  exact ⟨by simpa using hne, hmem⟩

/-- The eligible id list of a tag listed by `list_tags` is non-empty. -/
theorem idsForTag_ne_nil {questions : List Question} {t : List Char}
    (h : t ∈ listTags questions) : ¬ idsForTag questions t = [] := by
  obtain ⟨hne, q, hq, htag⟩ := mem_listTags h
  rw [idsForTag, if_neg hne]
  intro hnil
  rw [List.map_eq_nil] at hnil
  have hqf : q ∈ questions.filter
      (fun q => (q.tags.map normalize).contains (normalize t)) := by
    rw [List.mem_filter]
    exact ⟨hq, List.elem_eq_true_of_mem (List.mem_map_of_mem normalize htag)⟩
  rw [hnil] at hqf
  exact List.not_mem_nil q hqf

/-- Popping a freshly refilled non-empty bag succeeds. -/
theorem nextQuestionTag_isSome {eligible : List (List Char)} (rnd : Nat → Nat)
    (h : ¬ eligible = []) :
    ∃ qid bag, nextQuestionTag eligible rnd [] = some (qid, bag) := by
  have hlenS : (pyShuffle rnd eligible).length = eligible.length :=
    (pyShuffle_perm rnd eligible).length_eq
  have hSne : ¬ pyShuffle rnd eligible = [] := by
    intro hS
    rw [hS] at hlenS
    exact h (List.eq_nil_of_length_eq_zero hlenS.symm)
  rcases List.eq_nil_or_concat (pyShuffle rnd eligible) with hS | ⟨xs, x, hS⟩
  · exact absurd hS hSne
  · rw [List.concat_eq_append] at hS
    refine ⟨x, xs, ?_⟩
    simp only [nextQuestionTag, popLast, if_true]
    rw [hS, List.getLast?_concat, List.dropLast_concat]

/-- C1 counterexample: a tag scope with zero eligible question ids: the
draw on it is NOT treated as "no question available" — the refilled bag
is empty and the pop fails (`none` models the unhandled `IndexError` of
`list.pop()` on an empty list). -/
theorem claim_C1_counterexample :
    idsForTag [moviesQ] ['x'] = [] ∧
      nextQuestionTag (idsForTag [moviesQ] ['x']) rnd0 [] = none := by
  constructor
  · rfl
  · rfl

/-- C1 amended: the engine itself raises on an empty tag scope, but the
zero-eligible situation is unreachable through the guarded start path:
`cmd_quiz_start` only accepts a tag from `{"all"} + list_tags()`, every
tag in `list_tags()` has at least one eligible question, and `all` has one
whenever the catalog is non-empty — so the guarded draw always succeeds. -/
theorem claim_C1_amended (questions : List Question) (tag : List Char)
    (rnd : Nat → Nat)
    (h : tag ∈ listTags questions ∨ (tag = allTag ∧ ¬ questions = [])) :
    ∃ qid bag, nextQuestionTag (idsForTag questions tag) rnd [] = some (qid, bag) := by
  refine nextQuestionTag_isSome rnd ?_
  rcases h with hmem | ⟨hall, hne⟩
  · exact idsForTag_ne_nil hmem
  · rw [idsForTag, if_pos hall]
    intro hnil
    rw [List.map_eq_nil] at hnil
    exact hne hnil

/-- C1 witness: the tag `movies` is in the allowed set of the one-question
catalog, and the draw on it succeeds. -/
theorem claim_C1_witness :
    (['m', 'o', 'v', 'i', 'e', 's'] ∈ listTags [moviesQ] ∨
      (['m', 'o', 'v', 'i', 'e', 's'] = allTag ∧ ¬ [moviesQ] = [])) ∧
      ∃ qid bag,
        nextQuestionTag (idsForTag [moviesQ] ['m', 'o', 'v', 'i', 'e', 's']) rnd0 [] =
          some (qid, bag) :=
  ⟨Or.inl (by decide), claim_C1_amended [moviesQ] ['m', 'o', 'v', 'i', 'e', 's'] rnd0
    (Or.inl (by decide))⟩

/-- Unfolding `alnumPositions` over a leading character. -/
theorem alnumPositions_cons (c : Char) (cs : List Char) :
    alnumPositions (c :: cs) =
      (if pyIsAlnum c then [0] else []) ++ (alnumPositions cs).map Nat.succ := by
  simp only [alnumPositions, List.length_cons, List.range_succ_eq_map, List.filter_cons,
    List.getD_cons_zero, List.filter_map]
  split <;> simp [Function.comp_def]

/-- The alphanumeric position list has exactly one entry per alphanumeric
character. -/
theorem alnumPositions_length (ans : List Char) :
    (alnumPositions ans).length = (ans.filter pyIsAlnum).length := by
  induction ans with
  | nil => rfl
  | cons c cs ih =>
    rw [alnumPositions_cons, List.filter_cons]
    split <;> simp [ih]

/-- The alphanumeric position list is duplicate-free. -/
theorem alnumPositions_nodup (ans : List Char) : (alnumPositions ans).Nodup :=
  (List.nodup_range _).filter _

/-- The reveal prefix length grows with the hint level. -/
theorem revealCount_mono {n t level level' : Nat} (h : level ≤ level') :
    revealCount n level t ≤ revealCount n level' t := by
  unfold revealCount
  have hdiv : (n * level + t) / (t + 1) ≤ (n * level' + t) / (t + 1) :=
    Nat.div_le_div_right (by
      have := Nat.mul_le_mul_left n h
      omega)
  omega

/-- A shorter prefix is contained in a longer prefix of the same list. -/
theorem take_subset_take {α : Type} {l : List α} {a b : Nat} (h : a ≤ b) :
    l.take a ⊆ l.take b := by
  intro x hx
  have hab : l.take a = (l.take b).take a := by
    rw [List.take_take, Nat.min_eq_left h]
  rw [hab] at hx
  exact List.take_subset a (l.take b) hx

/-- At the plan's own hint total the reveal prefix never reaches `n` when
`n ≥ 2`. -/
theorem revealCount_lt_self {n t : Nat} (h2 : 2 ≤ n) (ht : t < n) :
    revealCount n t t < n := by
  rw [revealCount]
  have hdiv : (n * t + t) / (t + 1) < n := by
    rw [Nat.div_lt_iff_lt_mul (by omega : 0 < t + 1)]
    calc n * t + t < n * t + n := by omega
      _ = n * (t + 1) := by ring
  exact max_lt (by omega) hdiv

/-- The planned hint total is always below the alphanumeric count when the
answer has at least two alphanumeric characters. -/
theorem chooseHintPlan_lt (ans : List Char) (h2 : 2 ≤ (ans.filter pyIsAlnum).length) :
    (chooseHintPlan ans).hint_total < (ans.filter pyIsAlnum).length := by
  rw [chooseHintPlan_hint_total]
  split_ifs <;> omega

/-- C4: reveals are cumulative: for every hint level `k < hint_total`, the
positions revealed at level `k` are a subset of those revealed at level
`k + 1` (prefixes of the same seeded shuffle, with a monotone prefix
length). -/
theorem claim_C4_main (ans : List Char) (rnd : Nat → Nat) (t k : Nat)
    (hk : k < t) :
    ∀ i ∈ revealPositions ans rnd k t, i ∈ revealPositions ans rnd (k + 1) t := by
  intro i hi
  simp only [revealPositions] at hi ⊢
  exact take_subset_take (revealCount_mono (Nat.le_succ k)) hi

/-- C4 witness: a concrete answer, seed stream and level pair. -/
theorem claim_C4_witness :
    0 < 1 ∧
      ∀ i ∈ revealPositions ['a', 'b', 'c'] rnd0 0 1,
        i ∈ revealPositions ['a', 'b', 'c'] rnd0 1 1 :=
  ⟨by decide, claim_C4_main ['a', 'b', 'c'] rnd0 1 0 (by decide)⟩

/-- C3 counterexample: for the three-letter answer `abc` the plan grants
`hint_total = 1`, and the reveal set at level `hint_total` has only
`k = max(1, ceil(3·1/2)) = 2` of the 3 alphanumeric positions: the final
hint level does NOT cover all alphanumeric indices. -/
theorem claim_C3_counterexample :
    (chooseHintPlan ['a', 'b', 'c']).hint_total = 1 ∧
      alnumPositions ['a', 'b', 'c'] = [0, 1, 2] ∧
      revealPositions ['a', 'b', 'c'] rnd0 1 1 = [0, 1] ∧
      ¬ (∀ i ∈ alnumPositions ['a', 'b', 'c'],
          i ∈ revealPositions ['a', 'b', 'c'] rnd0 1 1) := by
  refine ⟨rfl, rfl, rfl, ?_⟩
  decide

/-- C3 amended: at hint level `hint_total` the revealed positions are
always alphanumeric indices of the answer; they cover all of them exactly
in the degenerate case `n = 1`, and for every answer with `n ≥ 2`
alphanumeric characters at least one index stays hidden (the prefix
length `max(1, ceil(n·t/(t+1)))` is `< n` because the plan always picks
`hint_total < n`). -/
theorem claim_C3_amended (ans : List Char) (rnd : Nat → Nat) :
    (∀ i ∈ revealPositions ans rnd (chooseHintPlan ans).hint_total
        (chooseHintPlan ans).hint_total, i ∈ alnumPositions ans) ∧
      ((alnumPositions ans).length = 1 →
        ∀ i ∈ alnumPositions ans,
          i ∈ revealPositions ans rnd (chooseHintPlan ans).hint_total
            (chooseHintPlan ans).hint_total) ∧
      (2 ≤ (alnumPositions ans).length →
        ¬ (∀ i ∈ alnumPositions ans,
            i ∈ revealPositions ans rnd (chooseHintPlan ans).hint_total
              (chooseHintPlan ans).hint_total)) := by
  have hperm : List.Perm (shuffledAlnumPositions ans rnd) (alnumPositions ans) :=
    pyShuffle_perm rnd (alnumPositions ans)
  refine ⟨fun i hi => ?_, fun h1 i hi => ?_, fun h2 hall => ?_⟩
  · simp only [revealPositions] at hi
    exact hperm.subset (List.take_subset _ _ hi)
  · simp only [revealPositions]
    have hlen : (shuffledAlnumPositions ans rnd).length = 1 := by
      rw [hperm.length_eq, h1]
    rw [List.take_all_of_le]
    · exact hperm.mem_iff.mpr hi
    · rw [hlen]
      simp [revealCount]
  · have hsub : alnumPositions ans ⊆
        (shuffledAlnumPositions ans rnd).take
          (revealCount (alnumPositions ans).length (chooseHintPlan ans).hint_total
            (chooseHintPlan ans).hint_total) := by
      intro i hi
      have hmem := hall i hi
      simpa [revealPositions] using hmem
    have hsp := List.subperm_of_subset (alnumPositions_nodup ans) hsub
    have hle := hsp.length_le
    have hlt : revealCount (alnumPositions ans).length (chooseHintPlan ans).hint_total
        (chooseHintPlan ans).hint_total < (alnumPositions ans).length := by
      refine revealCount_lt_self h2 ?_
      rw [alnumPositions_length] at h2 ⊢
      exact chooseHintPlan_lt ans h2
    have htk := List.length_take_le
      (revealCount (alnumPositions ans).length (chooseHintPlan ans).hint_total
        (chooseHintPlan ans).hint_total) (shuffledAlnumPositions ans rnd)
    omega

/-- C3 witness: the degenerate single-letter case is covered, and the
missing-index direction holds at `abc`. -/
theorem claim_C3_witness :
    ((alnumPositions ['z']).length = 1 ∧
      ∀ i ∈ alnumPositions ['z'],
        i ∈ revealPositions ['z'] rnd0 (chooseHintPlan ['z']).hint_total
          (chooseHintPlan ['z']).hint_total) ∧
      (2 ≤ (alnumPositions ['a', 'b', 'c']).length ∧
        ¬ (∀ i ∈ alnumPositions ['a', 'b', 'c'],
            i ∈ revealPositions ['a', 'b', 'c'] rnd0
              (chooseHintPlan ['a', 'b', 'c']).hint_total
              (chooseHintPlan ['a', 'b', 'c']).hint_total)) :=
  ⟨⟨by decide, (claim_C3_amended ['z'] rnd0).2.1 (by decide)⟩,
    ⟨by decide, (claim_C3_amended ['a', 'b', 'c'] rnd0).2.2 (by decide)⟩⟩

/-! ### C9: `normalize` is idempotent on the ASCII fragment -/

/-- `dropWhile` never lengthens a list. -/
theorem dropWhile_length_le {α : Type} (p : α → Bool) (l : List α) :
    (l.dropWhile p).length ≤ l.length :=
  (List.dropWhile_suffix p).sublist.length_le

/-- The head surviving `dropWhile` fails the predicate. -/
theorem head_dropWhile_false {p : Char → Bool} {l : List Char} {a : Char}
    (h : (l.dropWhile p).head? = some a) : p a = false := by
  have hh := List.head?_dropWhile_not p l
  rw [h] at hh
  simpa using hh

/-- `subRunsAux` does not depend on the fuel, as long as it suffices. -/
theorem subRunsAux_congr (p : Char → Bool) (r : Char) :
    ∀ (f1 f2 : Nat) (l : List Char), l.length ≤ f1 → l.length ≤ f2 →
      subRunsAux p r f1 l = subRunsAux p r f2 l
  | 0, f2, l, h1, _ => by
    have hl : l = [] := List.eq_nil_of_length_eq_zero (Nat.le_zero.mp h1)
    subst hl
    cases f2 <;> rfl
  | f1 + 1, 0, l, _, h2 => by
    have hl : l = [] := List.eq_nil_of_length_eq_zero (Nat.le_zero.mp h2)
    subst hl
    rfl
  | _ + 1, _ + 1, [], _, _ => rfl
  | f1 + 1, f2 + 1, c :: cs, h1, h2 => by
    simp only [subRunsAux]
    have hd := dropWhile_length_le p cs
    simp only [List.length_cons] at h1 h2
    split
    · rw [subRunsAux_congr p r f1 f2 (cs.dropWhile p) (by omega) (by omega)]
    · rw [subRunsAux_congr p r f1 f2 cs (by omega) (by omega)]

/-- One-step unfolding of `subRuns`. -/
theorem subRuns_cons (p : Char → Bool) (r c : Char) (cs : List Char) :
    subRuns p r (c :: cs) =
      if p c then r :: subRuns p r (cs.dropWhile p) else c :: subRuns p r cs := by
  simp only [subRuns, List.length_cons, subRunsAux]
  split
  · rw [subRunsAux_congr p r cs.length (cs.dropWhile p).length (cs.dropWhile p)
      (dropWhile_length_le p cs) (Nat.le_refl _)]
  · rfl

/-- Characters of a `subRuns` output: the replacement character, or an
input character failing the predicate. -/
theorem mem_subRuns (p : Char → Bool) (r : Char) :
    ∀ (l : List Char) (c : Char), c ∈ subRuns p r l → c = r ∨ (c ∈ l ∧ p c = false)
  | [], c, h => absurd h (by simp [subRuns, subRunsAux])
  | a :: as, c, h => by
    rw [subRuns_cons] at h
    split at h
    · rcases List.mem_cons.mp h with rfl | hm
      · exact Or.inl rfl
      · rcases mem_subRuns p r (as.dropWhile p) c hm with h1 | ⟨hm2, hp⟩
        · exact Or.inl h1
        · exact Or.inr ⟨List.mem_cons_of_mem a ((List.dropWhile_suffix p).subset hm2), hp⟩
    · rcases List.mem_cons.mp h with rfl | hm
      · rename_i hpc
        exact Or.inr ⟨List.mem_cons_self _ _, by simpa using hpc⟩
      · rcases mem_subRuns p r as c hm with h1 | ⟨hm2, hp⟩
        · exact Or.inl h1
        · exact Or.inr ⟨List.mem_cons_of_mem a hm2, hp⟩
termination_by l => l.length
decreasing_by
  all_goals
    have hdw := dropWhile_length_le p as
    simp only [List.length_cons]
    omega

/-- `subRuns` is the identity when no character satisfies the predicate. -/
theorem subRuns_eq_self (p : Char → Bool) (r : Char) :
    ∀ l : List Char, (∀ c ∈ l, p c = false) → subRuns p r l = l
  | [], _ => rfl
  | c :: cs, h => by
    rw [subRuns_cons, if_neg (by simp [h c (List.mem_cons_self c cs)]),
      subRuns_eq_self p r cs (fun d hd => h d (List.mem_cons_of_mem c hd))]

/-- A space-class character satisfies no word-character test. -/
theorem word_not_space {c : Char} (h : isWordChar c = true) : isSpaceChar c = false := by
  cases hs : isSpaceChar c
  · rfl
  · exfalso
    simp only [isSpaceChar, decide_eq_true_eq] at hs
    rcases hs with rfl | rfl | rfl | rfl | rfl | rfl <;> exact absurd h (by decide)

/-- A canonical space-class character is the plain space. -/
theorem canonChar_space {c : Char} (h : canonChar c = true)
    (hs : isSpaceChar c = true) : c = ' ' := by
  simp only [canonChar, Bool.or_eq_true, Bool.and_eq_true, decide_eq_true_eq] at h
  rcases h with ⟨⟨hw, _⟩, _⟩ | h
  · rw [word_not_space hw] at hs
    exact absurd hs (by simp)
  · exact h

/-- Collapsing whitespace runs is the identity on canonical strings with
no adjacent whitespace. -/
theorem collapse_eq_self :
    ∀ l : List Char, (∀ c ∈ l, canonChar c = true) → NoAdjSpace l →
      subRuns isSpaceChar ' ' l = l
  | [], _, _ => rfl
  | c :: cs, hc, hadj => by
    rw [subRuns_cons]
    have htl : NoAdjSpace cs := List.Chain'.tail hadj
    have hcs : ∀ d ∈ cs, canonChar d = true :=
      fun d hd => hc d (List.mem_cons_of_mem c hd)
    split
    · rename_i hsp
      have hceq : c = ' ' := canonChar_space (hc c (List.mem_cons_self c cs)) hsp
      have hdw : cs.dropWhile isSpaceChar = cs := by
        cases cs with
        | nil => rfl
        | cons d t =>
          have hnd : isSpaceChar d = false := by
            have hcc := (List.chain'_cons.mp hadj).1
            cases hdd : isSpaceChar d
            · rfl
            · exact absurd ⟨hsp, hdd⟩ hcc
          rw [List.dropWhile_cons_of_neg (by simp [hnd])]
      rw [hdw, collapse_eq_self cs hcs htl, hceq]
    · rw [collapse_eq_self cs hcs htl]

/-- Mapping a function that fixes every element is the identity. -/
theorem map_eq_self_of {α : Type} {f : α → α} :
    ∀ {l : List α}, (∀ a ∈ l, f a = a) → l.map f = l
  | [], _ => rfl
  | a :: as, h => by
    rw [List.map_cons, h a (List.mem_cons_self a as),
      map_eq_self_of (fun b hb => h b (List.mem_cons_of_mem a hb))]

/-- Flattening a map that sends every element to its singleton is the
identity. -/
theorem flatten_map_eq_self {f : Char → List Char} :
    ∀ {l : List Char}, (∀ a ∈ l, f a = [a]) → (l.map f).flatten = l
  | [], _ => rfl
  | a :: as, h => by
    rw [List.map_cons, List.flatten_cons, h a (List.mem_cons_self a as),
      flatten_map_eq_self (fun b hb => h b (List.mem_cons_of_mem a hb))]
    rfl

/-- `dropWhile` is the identity when the head fails the predicate. -/
theorem dropWhile_eq_self_of {p : Char → Bool} {l : List Char}
    (h : ∀ c, l.head? = some c → p c = false) : l.dropWhile p = l := by
  cases l with
  | nil => rfl
  | cons c cs => exact List.dropWhile_cons_of_neg (by simp [h c rfl])

/-- `dropTrailing` is the identity when the last element fails the
predicate. -/
theorem dropTrailing_eq_self_of {p : Char → Bool} {l : List Char}
    (h : ∀ c, l.getLast? = some c → p c = false) : dropTrailing p l = l := by
  rw [dropTrailing, dropWhile_eq_self_of, List.reverse_reverse]
  intro c hc
  rw [List.head?_reverse] at hc
  exact h c hc

/-- `pyStrip` is the identity on strings without boundary whitespace. -/
theorem pyStrip_eq_self {l : List Char}
    (hh : ∀ c, l.head? = some c → isSpaceChar c = false)
    (ht : ∀ c, l.getLast? = some c → isSpaceChar c = false) : pyStrip l = l := by
  rw [pyStrip, dropWhile_eq_self_of hh, dropTrailing_eq_self_of ht]

/-- The facts `normalize`'s stages need about a canonical character. -/
theorem canonChar_facts {c : Char} (h : canonChar c = true) :
    pyLower c = c ∧ ¬ c = 'ё' ∧ nfkdChar c = [c] ∧ isCombiningChar c = false ∧
      isPunctChar c = false := by
  simp only [canonChar, Bool.or_eq_true, Bool.and_eq_true, decide_eq_true_eq] at h
  rcases h with ⟨⟨hw, hlt⟩, hst⟩ | heq
  · have hne1 : ¬ c = 'é' := fun hc => by subst hc; exact absurd hlt (by decide)
    have hne2 : ¬ c = '№' := fun hc => by subst hc; exact absurd hlt (by decide)
    have hne3 : ¬ c = combiningAcute := fun hc => by subst hc; exact absurd hlt (by decide)
    have hne4 : ¬ c = 'ё' := fun hc => by subst hc; exact absurd hlt (by decide)
    refine ⟨hst, hne4, ?_, ?_, ?_⟩
    · rw [nfkdChar, if_neg hne1, if_neg hne2]
    · simp [isCombiningChar, hne3]
    · simp [isPunctChar, hw]
  · subst heq
    refine ⟨by decide, by decide, by decide, by decide, by decide⟩

/-- `normalize` is the identity on canonical strings. -/
theorem normalize_of_canon {l : List Char} (hc : CanonStr l) : normalize l = l := by
  obtain ⟨hchars, hadj, hh, ht⟩ := hc
  by_cases hne : l = []
  · subst hne
    rfl
  · have hlower : ∀ a ∈ l, pyLower a = a :=
      fun a ha => (canonChar_facts (hchars a ha)).1
    have hyo : ∀ a ∈ l, (if a = 'ё' then 'е' else a) = a :=
      fun a ha => if_neg (canonChar_facts (hchars a ha)).2.1
    have hnf : ∀ a ∈ l, nfkdChar a = [a] :=
      fun a ha => (canonChar_facts (hchars a ha)).2.2.1
    have hfil : l.filter (fun c => ¬ isCombiningChar c) = l :=
      List.filter_eq_self.mpr
        (fun a ha => by simp [(canonChar_facts (hchars a ha)).2.2.2.1])
    have hpun : subRuns isPunctChar ' ' l = l :=
      subRuns_eq_self isPunctChar ' ' l
        (fun a ha => (canonChar_facts (hchars a ha)).2.2.2.2)
    have hcoll : subRuns isSpaceChar ' ' l = l := collapse_eq_self l hchars hadj
    have hstrip : pyStrip l = l := pyStrip_eq_self hh ht
    rw [normalize, if_neg hne]
    show pyStrip (subRuns isSpaceChar ' '
      (subRuns isPunctChar ' '
        (List.filter (fun c => ¬ isCombiningChar c)
          (List.flatten (List.map nfkdChar
            (List.map (fun c => if c = 'ё' then 'е' else c)
              (List.map pyLower (pyStrip l)))))))) = l
    rw [hstrip, map_eq_self_of hlower, map_eq_self_of hyo, flatten_map_eq_self hnf,
      hfil, hpun, hcoll, hstrip]

/-- `pyLower`'s code point on the ASCII range. -/
theorem pyLower_toNat {c : Char} (h : c.toNat < 128) :
    (pyLower c).toNat =
      (if 65 ≤ c.toNat ∧ c.toNat ≤ 90 then c.toNat + 32 else c.toNat) := by
  rw [pyLower]
  split
  · rename_i hup
    rw [char_toNat_ofNat (by omega)]
  · rename_i hup
    have h1 : ¬ c = 'Ё' := fun hc => by subst hc; exact absurd h (by decide)
    have h2 : ¬ c = 'É' := fun hc => by subst hc; exact absurd h (by decide)
    rw [if_neg h1, if_neg h2]

/-- `pyLower` keeps ASCII inside ASCII. -/
theorem pyLower_ascii {c : Char} (h : c.toNat < 128) : (pyLower c).toNat < 128 := by
  rw [pyLower_toNat h]
  split <;> omega

/-- `pyLower` fixes ASCII characters outside the uppercase range. -/
theorem pyLower_eq_self {c : Char} (h : c.toNat < 128)
    (hn : ¬ (65 ≤ c.toNat ∧ c.toNat ≤ 90)) : pyLower c = c := by
  have h1 : ¬ c = 'Ё' := fun hc => by subst hc; exact absurd h (by decide)
  have h2 : ¬ c = 'É' := fun hc => by subst hc; exact absurd h (by decide)
  rw [pyLower, if_neg hn, if_neg h1, if_neg h2]

/-- `pyLower` is idempotent on ASCII. -/
theorem pyLower_idem {c : Char} (h : c.toNat < 128) :
    pyLower (pyLower c) = pyLower c := by
  by_cases hup : 65 ≤ c.toNat ∧ c.toNat ≤ 90
  · have h2 : (pyLower c).toNat = c.toNat + 32 := by
      rw [pyLower_toNat h, if_pos hup]
    exact pyLower_eq_self (by omega) (by omega)
  · rw [pyLower_eq_self h hup, pyLower_eq_self h hup]

/-- ASCII characters are inert for the `ё`-replacement, the NFKD stage and
the combining-mark filter. -/
theorem ascii_char_facts {c : Char} (h : c.toNat < 128) :
    ¬ c = 'ё' ∧ nfkdChar c = [c] ∧ isCombiningChar c = false := by
  have hne0 : ¬ c = 'ё' := fun hc => by subst hc; exact absurd h (by decide)
  have hne1 : ¬ c = 'é' := fun hc => by subst hc; exact absurd h (by decide)
  have hne2 : ¬ c = '№' := fun hc => by subst hc; exact absurd h (by decide)
  have hne3 : ¬ c = combiningAcute := fun hc => by subst hc; exact absurd h (by decide)
  refine ⟨hne0, ?_, ?_⟩
  · rw [nfkdChar, if_neg hne1, if_neg hne2]
  · simp [isCombiningChar, hne3]

/-- `pyStrip` only removes characters. -/
theorem pyStrip_subset (l : List Char) : pyStrip l ⊆ l := by
  intro c hc
  rw [pyStrip, dropTrailing, List.mem_reverse] at hc
  have h1 := (List.dropWhile_suffix isSpaceChar).subset hc
  rw [List.mem_reverse] at h1
  exact (List.dropWhile_suffix isSpaceChar).subset h1

/-- On ASCII input the NFKD/combining stages of `normalize` are inert, so
`normalize` is strip, lower, punctuation runs to space, whitespace runs
collapsed, strip. -/
theorem normalize_eq_of_ascii {l : List Char} (h : ∀ c ∈ l, c.toNat < 128)
    (hne : ¬ l = []) :
    normalize l =
      pyStrip (subRuns isSpaceChar ' '
        (subRuns isPunctChar ' ' ((pyStrip l).map pyLower))) := by
  have hT1 : ∀ a ∈ (pyStrip l).map pyLower, a.toNat < 128 := by
    intro a ha
    obtain ⟨c0, hc0, rfl⟩ := List.mem_map.mp ha
    exact pyLower_ascii (h c0 (pyStrip_subset l hc0))
  have hyo : ∀ a ∈ (pyStrip l).map pyLower, (if a = 'ё' then 'е' else a) = a :=
    fun a ha => if_neg (ascii_char_facts (hT1 a ha)).1
  have hnf : ∀ a ∈ (pyStrip l).map pyLower, nfkdChar a = [a] :=
    fun a ha => (ascii_char_facts (hT1 a ha)).2.1
  have hfil : ((pyStrip l).map pyLower).filter (fun c => ¬ isCombiningChar c) =
      (pyStrip l).map pyLower :=
    List.filter_eq_self.mpr (fun a ha => by simp [(ascii_char_facts (hT1 a ha)).2.2])
  rw [normalize, if_neg hne]
  show pyStrip (subRuns isSpaceChar ' '
    (subRuns isPunctChar ' '
      (List.filter (fun c => ¬ isCombiningChar c)
        (List.flatten (List.map nfkdChar
          (List.map (fun c => if c = 'ё' then 'е' else c)
            (List.map pyLower (pyStrip l)))))))) = _
  rw [map_eq_self_of hyo, flatten_map_eq_self hnf, hfil]

/-- A character failing the punctuation class is a word or space
character. -/
theorem not_punct {c : Char} (h : isPunctChar c = false) :
    isWordChar c = true ∨ isSpaceChar c = true := by
  simp only [isPunctChar, decide_eq_false_iff_not, not_not] at h
  exact h

/-- The runs produced by `subRuns` never leave two adjacent characters of
the replaced class, and a surviving head is preserved. -/
theorem subRuns_chain (p : Char → Bool) (r : Char) :
    ∀ l : List Char,
      List.Chain' (fun a b => ¬ (p a = true ∧ p b = true)) (subRuns p r l) ∧
        (∀ d, l.head? = some d → p d = false → (subRuns p r l).head? = some d)
  | [] => ⟨List.chain'_nil, fun d hd _ => by simp at hd⟩
  | c :: cs => by
    rw [subRuns_cons]
    by_cases hpc : p c = true
    · rw [if_pos hpc]
      constructor
      · rcases hdw : cs.dropWhile p with _ | ⟨e, t⟩
        · simp [subRuns, subRunsAux]
        · have hre := subRuns_chain p r (e :: t)
          have hpe : p e = false := by
            apply head_dropWhile_false (p := p) (l := cs)
            rw [hdw]
            rfl
          have hhead := hre.2 e rfl hpe
          rw [List.chain'_cons']
          refine ⟨?_, hre.1⟩
          intro b hb
          rw [hhead] at hb
          obtain rfl : e = b := by simpa using hb
          intro hcon
          rw [hpe] at hcon
          exact absurd hcon.2 (by simp)
      · intro d hd hpd
        rw [List.head?_cons] at hd
        obtain rfl : c = d := by simpa using hd
        rw [hpc] at hpd
        exact absurd hpd (by simp)
    · rw [if_neg hpc]
      have hre := subRuns_chain p r cs
      constructor
      · rw [List.chain'_cons']
        exact ⟨fun b _ hcon => hpc hcon.1, hre.1⟩
      · intro d hd _
        rw [List.head?_cons] at hd
        obtain rfl : c = d := by simpa using hd
        rfl
termination_by l => l.length
decreasing_by
  all_goals simp only [List.length_cons]
  · have hdl := dropWhile_length_le p cs
    rw [hdw] at hdl
    simp only [List.length_cons] at hdl
    omega
  · omega

/-- A prefix of a chain is a chain. -/
theorem chain'_of_prefix {R : Char → Char → Prop} {l1 l2 : List Char}
    (h : List.Chain' R l2) (hp : l1 <+: l2) : List.Chain' R l1 := by
  obtain ⟨t, rfl⟩ := hp
  exact (List.chain'_append.mp h).1

/-- A suffix of a chain is a chain. -/
theorem chain'_of_suffix {R : Char → Char → Prop} {l1 l2 : List Char}
    (h : List.Chain' R l2) (hs : l1 <:+ l2) : List.Chain' R l1 := by
  obtain ⟨t, rfl⟩ := hs
  exact (List.chain'_append.mp h).2.1

/-- No-adjacent-whitespace is symmetric under reversal. -/
theorem noAdjSpace_reverse {l : List Char} (h : NoAdjSpace l) :
    NoAdjSpace l.reverse := by
  rw [NoAdjSpace, List.chain'_reverse]
  exact List.Chain'.imp (fun a b hab hcon => hab ⟨hcon.2, hcon.1⟩) h

/-- `pyStrip` preserves no-adjacent-whitespace. -/
theorem noAdjSpace_pyStrip {l : List Char} (h : NoAdjSpace l) :
    NoAdjSpace (pyStrip l) := by
  have h1 : NoAdjSpace (l.dropWhile isSpaceChar) :=
    chain'_of_suffix h (List.dropWhile_suffix _)
  have h2 := noAdjSpace_reverse h1
  have h3 : NoAdjSpace ((l.dropWhile isSpaceChar).reverse.dropWhile isSpaceChar) :=
    chain'_of_suffix h2 (List.dropWhile_suffix _)
  exact noAdjSpace_reverse h3

/-- The head of a stripped string is never whitespace. -/
theorem pyStrip_head {l : List Char} {c : Char}
    (h : (pyStrip l).head? = some c) : isSpaceChar c = false := by
  have hpre : pyStrip l <+: l.dropWhile isSpaceChar := by
    rw [pyStrip, dropTrailing]
    have hs := List.dropWhile_suffix (l := (l.dropWhile isSpaceChar).reverse) isSpaceChar
    have hp := List.reverse_prefix.mpr hs
    rwa [List.reverse_reverse] at hp
  obtain ⟨t, hteq⟩ := hpre
  have hm : (l.dropWhile isSpaceChar).head? = some c := by
    rw [← hteq, List.head?_append, h]
    rfl
  exact head_dropWhile_false hm

/-- The last character of a stripped string is never whitespace. -/
theorem pyStrip_getLast {l : List Char} {c : Char}
    (h : (pyStrip l).getLast? = some c) : isSpaceChar c = false := by
  rw [pyStrip, dropTrailing, List.getLast?_reverse] at h
  exact head_dropWhile_false h

/-- On ASCII input, the output of `normalize` is canonical. -/
theorem normalize_canon {l : List Char} (h : ∀ c ∈ l, c.toNat < 128) :
    CanonStr (normalize l) := by
  by_cases hne : l = []
  · subst hne
    refine ⟨fun c hc => by simp [normalize] at hc, ?_, fun c hc => by simp [normalize] at hc,
      fun c hc => by simp [normalize] at hc⟩
    show List.Chain' _ (normalize [])
    simp [normalize]
  · have hT1 : ∀ a ∈ (pyStrip l).map pyLower, a.toNat < 128 ∧ pyLower a = a := by
      intro a ha
      obtain ⟨c0, hc0, rfl⟩ := List.mem_map.mp ha
      exact ⟨pyLower_ascii (h c0 (pyStrip_subset l hc0)),
        pyLower_idem (h c0 (pyStrip_subset l hc0))⟩
    rw [normalize_eq_of_ascii h hne]
    refine ⟨?_, ?_, fun c hc => pyStrip_head hc, fun c hc => pyStrip_getLast hc⟩
    · intro c hc
      have hc5 := pyStrip_subset _ hc
      rcases mem_subRuns _ _ _ _ hc5 with rfl | ⟨hc4, hsp⟩
      · decide
      · rcases mem_subRuns _ _ _ _ hc4 with rfl | ⟨hc1, hpu⟩
        · decide
        · rcases not_punct hpu with hw | hs
          · have hfacts := hT1 c hc1
            simp only [canonChar, Bool.or_eq_true, Bool.and_eq_true, decide_eq_true_eq]
            exact Or.inl ⟨⟨hw, hfacts.1⟩, hfacts.2⟩
          · rw [hs] at hsp
            exact absurd hsp (by simp)
    · exact noAdjSpace_pyStrip (subRuns_chain isSpaceChar ' ' _).1

/-- C9 counterexample: `normalize` is not idempotent: the numero sign
`№` lowercases to itself, then NFKD-decomposes to the two letters `No`,
whose uppercase `N` survives the first pass; a second pass lowercases it
to `no`. -/
theorem claim_C9_counterexample :
    ¬ normalize (normalize ['№']) = normalize ['№'] := by decide

/-- C9 amended: `normalize` is idempotent on ASCII strings (`normalize`
output is then canonical — lowercase-stable word characters and single
interior spaces — and every stage fixes canonical strings); it is not
idempotent in general, because a compatibility decomposition applied
after lowercasing can introduce fresh uppercase letters. -/
theorem claim_C9_amended (l : List Char) (h : ∀ c ∈ l, c.toNat < 128) :
    normalize (normalize l) = normalize l :=
  normalize_of_canon (normalize_canon h)

/-- C9 witness: a concrete ASCII string with case, punctuation and
whitespace. -/
theorem claim_C9_witness :
    (∀ c ∈ ['A', ' ', ' ', 'b', '!'], c.toNat < 128) ∧
      normalize (normalize ['A', ' ', ' ', 'b', '!']) =
        normalize ['A', ' ', ' ', 'b', '!'] :=
  ⟨by decide, claim_C9_amended ['A', ' ', ' ', 'b', '!'] (by decide)⟩

end QuizBot
